import Mathlib

/-!
Verification of the hyphen-resolution decision engine and its evaluation
harness, shallowly embedded from the Python sources:
scripts/evaluate/merge_hyphens_baseline_with_supplements.py,
scripts/evaluation/evaluate_baselines_on_file_confusion_matrix.py and
scripts/evaluate/language_model_evaluate.py.

Conventions of the embedding:
- Python strings are lists of characters (type Word below).
- Python dicts that preserve insertion order are association lists; dictSet
  models item assignment (overwrite in place, else append).
- Confidence scores, which the source keeps as floats rounded to two
  decimals, are kept as integer numbers of hundredths (so confidence 1 is
  100, 0.57 is 57). Probabilities of the language-model strategy are exact
  rationals. Rounding a ratio to two decimals is modelled exactly, with
  ties resolved to the even hundredth, the rule Python uses on halves.
- Python exceptions are the error side of Except.
-/

set_option maxRecDepth 4000

/-- Python exceptions that the modelled code can raise. -/
inductive PyErr where
  | valueError
  | keyError
  | zeroDivisionError
  | indexError
deriving DecidableEq

deriving instance DecidableEq for Except

/-- A Python string, as its list of characters. -/
abbrev Word := List Char

/-- Shorthand turning a Lean string literal into a Word. -/
def wstr (s : String) : Word := s.toList

/-- The reserved hyphenation placeholder, Greek ano teleia U+0387: the
default hyphen_symbol of BaselineWithSupplements and of the evaluation
driver. -/
def hyphenSymbol : Char := Char.ofNat 0x0387

/-- The reserved digit placeholder, Greek capital chi U+03A7: the default
digit_symbol of BaselineWithSupplements. -/
def digitSymbol : Char := Char.ofNat 0x03A7

/-- Greek small chi U+03C7, the lowercase image of the digit placeholder. -/
def chiLower : Char := Char.ofNat 0x03C7

/-- Python str.lower restricted to the alphabet the program manipulates:
ASCII uppercase letters map to lowercase, the Greek capital chi maps to
small chi, every other character is unchanged. -/
def pyToLower (c : Char) : Char :=
  if 65 ≤ c.toNat ∧ c.toNat ≤ 90 then Char.ofNat (c.toNat + 32)
  else if c = digitSymbol then chiLower
  else c

/-- The merged form of a token: lowercased, each placeholder removed.
Models custom_hyph_word.lower().replace(hyphen_symbol, ''). -/
def mergedOf (token : Word) : Word :=
  (token.map pyToLower).filter (fun c => c != hyphenSymbol)

/-- The hyphenated form of a token: lowercased, each placeholder replaced
by a literal hyphen. Models
custom_hyph_word.lower().replace(hyphen_symbol, '-'). -/
def hyphenatedOf (token : Word) : Word :=
  (token.map pyToLower).map (fun c => if c = hyphenSymbol then '-' else c)

/-- Digit substitution: every ASCII decimal digit becomes the digit
placeholder. Models re.sub(r'[0-9]', digit_symbol, w). -/
def subDigits (w : Word) : Word :=
  w.map (fun c => if c.isDigit then digitSymbol else c)

/-- Item assignment on an insertion-ordered dict: overwrite the value of an
existing key in place, otherwise append the new pair at the end. -/
def dictSet {β : Type} (d : List (Word × β)) (k : Word) (v : β) :
    List (Word × β) :=
  match d with
  | [] => [(k, v)]
  | (k', v') :: rest =>
      if k' = k then (k, v) :: rest else (k', v') :: dictSet rest k v

/-- Rounding of the ratio num/den to two decimals, returned as a number of
hundredths, ties going to the even hundredth as Python round does on exact
halves. -/
def round2 (num den : ℕ) : ℕ :=
  if 2 * (100 * num % den) < den then 100 * num / den
  else if den < 2 * (100 * num % den) then 100 * num / den + 1
  else if (100 * num / den) % 2 = 0 then 100 * num / den
  else 100 * num / den + 1

/-- Model of BaselineWithSupplements.calculate_confidence_score. The merged
frequency is a plain indexing (KeyError when absent), the hyphenated
frequency falls back to 0, both ratios are rounded to two decimals, and
the merged word is inserted into the result dict first. A zero total would
raise ZeroDivisionError. -/
def calcConfidence (lex : Word → Option ℕ) (hyphW mw : Word) :
    Except PyErr (List (Word × ℕ)) :=
  match lex mw with
  | none => .error .keyError
  | some mf =>
      if mf + (lex hyphW).getD 0 = 0 then .error .zeroDivisionError
      else .ok (dictSet
               (dictSet [] mw (round2 mf (mf + (lex hyphW).getD 0)))
               hyphW (round2 ((lex hyphW).getD 0)
                       (mf + (lex hyphW).getD 0)))

/-- The translation loop of the digit and subword branches: each confidence
entry is re-keyed to the hyphenated form of the full token when its key
contains a literal hyphen, and to the merged form otherwise. -/
def remapConf (confs : List (Word × ℕ)) (hyphW mw : Word) :
    List (Word × ℕ) :=
  confs.foldl
    (fun result kv =>
      if kv.1.any (fun c => c == '-') then dictSet result hyphW kv.2
      else dictSet result mw kv.2) []

/-- One lookup cascade step shared by the normal, digit and subword cases
of merge_and_lookup: look up a merged key and a hyphenated key; when the
merged key is present return the joint confidence scores (re-keyed to the
given return forms in the digit and subword cases) or the merged return
form with confidence 1; when only the hyphenated key is present return the
hyphenated return form with confidence 1; otherwise fall through (none). -/
def caseLookup (lex : Word → Option ℕ) (lm lh retM retH : Word)
    (doRemap : Bool) : Option (Except PyErr (List (Word × ℕ))) :=
  if (lex lm).isSome then
    some (if (lex lh).isSome then
            (calcConfidence lex lh lm).map
              (fun confs => if doRemap then remapConf confs retH retM
                            else confs)
          else .ok [(retM, 100)])
  else if (lex lh).isSome then some (.ok [(retH, 100)])
  else none

/-- Python str.split on a single separator character: the list of chunks
between separator occurrences; splitting the empty string gives one empty
chunk. -/
def pySplit (sep : Char) : Word → List Word
  | [] => [[]]
  | c :: rest =>
      let ps := pySplit sep rest
      if c = sep then [] :: ps
      else
        match ps with
        | p :: ps' => (c :: p) :: ps'
        | [] => [[c]]

/-- The slice left[left.rfind('-') + 1:]: the segment of the left half
after its last literal hyphen, or the whole half when it has none. -/
def lastSegPy (w : Word) : Word :=
  (w.reverse.takeWhile (fun c => c != '-')).reverse

/-- The slice right[:idx] where idx is right.find('-') when that index is
positive and len(right) otherwise: the segment of the right half before
its first literal hyphen, except that a half starting with a hyphen is
taken whole. -/
def firstSegPy (w : Word) : Word :=
  if w.head? = some '-' then w else w.takeWhile (fun c => c != '-')

/-- The second special case of merge_and_lookup and its final default:
when the raw token holds a literal hyphen, split the lowered token on the
placeholder into exactly two halves (a Python tuple unpack, ValueError on
any other number of parts), extract the adjacent subword and look it up
merged and hyphenated; if that too falls through, or the token holds no
literal hyphen, return the merged form with confidence 0. In the
both-found case the source passes the subwords to
calculate_confidence_score with the merged subword in the
hyphenated_word slot and the hyphenated subword in the merged_word slot
(a swapped call), so the confidences dict lists the hyphenated subword
first and the translation loop inserts the full hyphenated form first. -/
def subwordOrDefault (lex : Word → Option ℕ) (token : Word) :
    Except PyErr (List (Word × ℕ)) :=
  if token.any (fun c => c == '-') then
    match pySplit hyphenSymbol (token.map pyToLower) with
    | [left, right] =>
        if (lex (lastSegPy left ++ firstSegPy right)).isSome then
          if (lex (lastSegPy left ++ '-' :: firstSegPy right)).isSome then
            (calcConfidence lex (lastSegPy left ++ firstSegPy right)
                (lastSegPy left ++ '-' :: firstSegPy right)).map
              (fun confs =>
                remapConf confs (hyphenatedOf token) (mergedOf token))
          else .ok [(mergedOf token, 100)]
        else if (lex (lastSegPy left ++ '-' :: firstSegPy right)).isSome then
          .ok [(hyphenatedOf token, 100)]
        else .ok [(mergedOf token, 0)]
    | _ => .error .valueError
  else .ok [(mergedOf token, 0)]

/-- Model of BaselineWithSupplements.merge_and_lookup with the default
placeholder symbols. The lexicon is the loaded word-frequency dict,
abstracted as a lookup function. Confidences are in hundredths. -/
def mergeAndLookup (lex : Word → Option ℕ) (token : Word) :
    Except PyErr (List (Word × ℕ)) :=
  match (if token.any (fun c => c.isDigit) then
           caseLookup lex (subDigits (mergedOf token))
             (subDigits (hyphenatedOf token))
             (mergedOf token) (hyphenatedOf token) true
         else
           caseLookup lex (mergedOf token) (hyphenatedOf token)
             (mergedOf token) (hyphenatedOf token) false) with
  | some r => r
  | none => subwordOrDefault lex token

/-- Stable insertion into a list sorted by descending confidence: the new
element goes before the first entry whose confidence does not exceed its
own, which preserves the original order of equal confidences. -/
def insertDesc (x : Word × ℕ) : List (Word × ℕ) → List (Word × ℕ)
  | [] => [x]
  | y :: ys => if x.2 < y.2 then y :: insertDesc x ys else x :: y :: ys

/-- The stable descending sort by confidence the harness applies with
sorted(..., key=lambda x: x[1], reverse=True). -/
def sortDesc (l : List (Word × ℕ)) : List (Word × ℕ) :=
  l.foldr insertDesc []

/-- The winning candidate of a resolution result: first entry of the
stable descending sort, as in sorted_confidences[0]. -/
def topCandidate (l : List (Word × ℕ)) : Option (Word × ℕ) :=
  (sortDesc l).head?

/-- Python whitespace as stripped by str.strip. -/
def isPySpace (c : Char) : Bool :=
  c == ' ' || c == '\t' || c == '\n' || c == '\r' ||
  c == '\x0b' || c == '\x0c'

/-- Python str.strip: drop whitespace from both ends. -/
def pyStrip (w : Word) : Word :=
  ((w.dropWhile isPySpace).reverse.dropWhile isPySpace).reverse

/-- The value of a nonempty all-digit string, none otherwise. -/
def decDigitsVal (w : Word) : Option ℕ :=
  if w.isEmpty then none
  else if w.all Char.isDigit then
    some (w.foldl (fun n c => 10 * n + (c.toNat - 48)) 0)
  else none

/-- Python int() on a string: surrounding whitespace stripped, an optional
sign, then decimal digits; anything else raises ValueError (none here). -/
def pyInt (wd : Word) : Option ℤ :=
  match pyStrip wd with
  | '-' :: ds => (decDigitsVal ds).map (fun n => -(n : ℤ))
  | '+' :: ds => (decDigitsVal ds).map (fun n => (n : ℤ))
  | ds => (decDigitsVal ds).map (fun n => (n : ℤ))

/-- One line of the word-list file as read by the constructor of
BaselineWithSupplements: line.strip().split('\t') unpacked into exactly a
word and a frequency, the frequency then parsed by int(). Any other shape
raises ValueError. -/
def parseLexLine (line : Word) : Except PyErr (Word × ℤ) :=
  match pySplit '\t' (pyStrip line) with
  | [wd, freq] =>
      match pyInt freq with
      | some n => .ok (wd, n)
      | none => .error .valueError
  | _ => .error .valueError

/-- The word-list loading loop, threading the dict through the lines and
propagating the first exception. -/
def loadFrom (d : List (Word × ℤ)) : List Word →
    Except PyErr (List (Word × ℤ))
  | [] => .ok d
  | line :: rest =>
      match parseLexLine line with
      | .error e => .error e
      | .ok (wd, f) => loadFrom (dictSet d wd f) rest

/-- Model of the word-list loading in BaselineWithSupplements.__init__:
build the frequency dict from the lines of the file, aborting with the
exception of the first malformed line. -/
def loadWordList (lines : List Word) : Except PyErr (List (Word × ℤ)) :=
  loadFrom [] lines

/-- One line of the labeled dataset as read by
EvaluateBaseline.evaluate_baseline_on_file: line.split('\t'), then
line[0].strip() and line[1].strip(); a line without a tab raises
IndexError at line[1]. -/
def datasetLineParts (line : Word) : Except PyErr (Word × Word) :=
  match pySplit '\t' line with
  | x :: y :: _ => .ok (pyStrip x, pyStrip y)
  | _ => .error .indexError

/-- Rounding of a rational to the nearest integer, ties to the even
integer, the rule Python round follows on exact halves. -/
def roundHalfEvenQ (x : ℚ) : ℤ :=
  if x - ⌊x⌋ < 1 / 2 then ⌊x⌋
  else if (1 : ℚ) / 2 < x - ⌊x⌋ then ⌊x⌋ + 1
  else if ⌊x⌋ % 2 = 0 then ⌊x⌋ else ⌊x⌋ + 1

/-- Python round(x, 2) on an exact rational. -/
def roundQ2 (x : ℚ) : ℚ := (roundHalfEvenQ (100 * x) : ℚ) / 100

/-- The keep/merge decision rule of the language-model strategy in
language_model_evaluate.run, given the two already-rounded word
probabilities: with hyphen (prob_word_v1) and without (prob_word_v0). -/
def predictionKeepHyphen (p1 p0 : ℚ) : Bool :=
  if p1 > 1 / 2 then decide (roundQ2 (p1 - p0) > 1 / 100)
  else decide (roundQ2 (p1 - p0) ≥ 1 / 10)

/-- The eight counters of the language-model evaluation pass: the four
confusion-matrix cells (v0 means merge, v1 means keep; the first index is
the prediction, the second the expectation) and the four ambiguous-matrix
cells. -/
structure LMCounters where
  v0v0 : ℕ
  v0v1 : ℕ
  v1v0 : ℕ
  v1v1 : ℕ
  v0v0A : ℕ
  v0v1A : ℕ
  v1v0A : ℕ
  v1v1A : ℕ
deriving DecidableEq

/-- The all-zero counters the pass starts from. -/
def lmInit : LMCounters := ⟨0, 0, 0, 0, 0, 0, 0, 0⟩

/-- The data of one processed hyphenated word that the counter update
depends on: the keep/merge prediction, whether the predicted word equals
the expected word, and the two rounded word probabilities. -/
structure LMStep where
  keep : Bool
  correct : Bool
  p0 : ℚ
  p1 : ℚ

/-- The counter update for one hyphenated word, as in
language_model_evaluate.run: a correct prediction increments the matching
diagonal cell of both matrices; a misprediction increments its off-diagonal
confusion cell, and its ambiguous count goes to the corresponding diagonal
cell when both probabilities are at least 0.75 and to the off-diagonal
cell otherwise. -/
def lmUpdate (s : LMCounters) (st : LMStep) : LMCounters :=
  if st.correct then
    if st.keep then { s with v1v1 := s.v1v1 + 1, v1v1A := s.v1v1A + 1 }
    else { s with v0v0 := s.v0v0 + 1, v0v0A := s.v0v0A + 1 }
  else
    if st.keep then
      if st.p0 ≥ 3 / 4 ∧ st.p1 ≥ 3 / 4 then
        { s with v1v0 := s.v1v0 + 1, v0v0A := s.v0v0A + 1 }
      else { s with v1v0 := s.v1v0 + 1, v1v0A := s.v1v0A + 1 }
    else
      if st.p0 ≥ 3 / 4 ∧ st.p1 ≥ 3 / 4 then
        { s with v0v1 := s.v0v1 + 1, v1v1A := s.v1v1A + 1 }
      else { s with v0v1 := s.v0v1 + 1, v0v1A := s.v0v1A + 1 }

/-- Sum of the four confusion-matrix cells. -/
def confSum (s : LMCounters) : ℕ := s.v0v0 + s.v0v1 + s.v1v0 + s.v1v1

/-- Sum of the four ambiguous-matrix cells. -/
def ambSum (s : LMCounters) : ℕ := s.v0v0A + s.v0v1A + s.v1v0A + s.v1v1A

/-- Pointwise order on counter states: every cell of the first is at most
the matching cell of the second. -/
def countersLE (s t : LMCounters) : Prop :=
  s.v0v0 ≤ t.v0v0 ∧ s.v0v1 ≤ t.v0v1 ∧ s.v1v0 ≤ t.v1v0 ∧ s.v1v1 ≤ t.v1v1 ∧
  s.v0v0A ≤ t.v0v0A ∧ s.v0v1A ≤ t.v0v1A ∧ s.v1v0A ≤ t.v1v0A ∧
  s.v1v1A ≤ t.v1v1A

example : mergeAndLookup
    (fun x => if x = wstr "email" then some 570
              else if x = wstr "e-mail" then some 430 else none)
    ('e' :: hyphenSymbol :: wstr "mail")
    = .ok [(wstr "email", 57), (wstr "e-mail", 43)] := by decide

example : mergeAndLookup
    (fun x => if x = digitSymbol :: digitSymbol :: wstr "-million"
              then some 42 else none)
    (wstr "13-milli" ++ hyphenSymbol :: wstr "on")
    = .ok [(wstr "13-million", 100)] := by decide

example : mergeAndLookup
    (fun x => if x = wstr "million" then some 7 else none)
    (wstr "multi-mil" ++ hyphenSymbol :: wstr "lion-dollar")
    = .ok [(wstr "multi-million-dollar", 100)] := by decide

example : mergeAndLookup (fun _ => none)
    (wstr "a-b" ++ hyphenSymbol :: 'c' :: hyphenSymbol :: wstr "d")
    = .error .valueError := by decide

example : mergeAndLookup (fun _ => none)
    ('a' :: hyphenSymbol :: wstr "b")
    = .ok [(wstr "ab", 0)] := by decide

/-! Character-level facts about the restricted lowercase map. -/

theorem char_toNat_inj {a b : Char} (h : a.toNat = b.toNat) : a = b := by
  have ha := Char.ofNat_toNat a
  rw [h, Char.ofNat_toNat] at ha
  exact ha.symm

theorem char_toNat_ofNat_ascii {n : ℕ} (h : n < 0xd800) :
    (Char.ofNat n).toNat = n := by
  unfold Char.ofNat
  rw [dif_pos (Or.inl h)]
  rfl

theorem char_isDigit_iff (c : Char) :
    c.isDigit = true ↔ 48 ≤ c.toNat ∧ c.toNat ≤ 57 := by
  simp [Char.isDigit, Char.le_def, UInt32.le_def, BitVec.le_def,
    Char.toNat, UInt32.toNat]

theorem pyToLower_toNat (c : Char) :
    (pyToLower c).toNat =
      if 65 ≤ c.toNat ∧ c.toNat ≤ 90 then c.toNat + 32
      else if c = digitSymbol then 967
      else c.toNat := by
  unfold pyToLower
  split_ifs with h1 h2
  · exact char_toNat_ofNat_ascii (by omega)
  · rfl
  · rfl

theorem pyToLower_eq_hyphen_iff (c : Char) :
    pyToLower c = hyphenSymbol ↔ c = hyphenSymbol := by
  constructor
  · intro h
    have ht : (pyToLower c).toNat = hyphenSymbol.toNat := by rw [h]
    rw [pyToLower_toNat] at ht
    have hh : hyphenSymbol.toNat = 903 := by decide
    rw [hh] at ht
    split_ifs at ht with h1 h2
    · omega
    · omega
    · exact char_toNat_inj (by omega)
  · intro h
    subst h
    decide

theorem pyToLower_ne_digitSymbol (c : Char) : pyToLower c ≠ digitSymbol := by
  intro h
  have ht : (pyToLower c).toNat = digitSymbol.toNat := by rw [h]
  rw [pyToLower_toNat] at ht
  have hh : digitSymbol.toNat = 935 := by decide
  rw [hh] at ht
  split_ifs at ht with h1 h2
  · omega
  · omega
  · exact h2 (char_toNat_inj (by omega))

theorem pyToLower_eq_dash_iff (c : Char) :
    pyToLower c = '-' ↔ c = '-' := by
  constructor
  · intro h
    have ht : (pyToLower c).toNat = ('-').toNat := by rw [h]
    rw [pyToLower_toNat] at ht
    have hh : ('-').toNat = 45 := by decide
    rw [hh] at ht
    split_ifs at ht with h1 h2
    · omega
    · omega
    · exact char_toNat_inj (by omega)
  · intro h
    subst h
    decide

theorem pyToLower_digit {c : Char} (h : c.isDigit = true) :
    pyToLower c = c := by
  have hd := (char_isDigit_iff c).mp h
  have hnd : c ≠ digitSymbol := by
    intro he
    rw [he] at hd
    revert hd
    decide
  unfold pyToLower
  rw [if_neg (by omega), if_neg hnd]

theorem pyToLower_isDigit (c : Char) : (pyToLower c).isDigit = c.isDigit := by
  cases hd : c.isDigit with
  | true => rw [pyToLower_digit hd, hd]
  | false =>
      cases hd2 : (pyToLower c).isDigit with
      | false => rfl
      | true =>
          exfalso
          have h2 := (char_isDigit_iff _).mp hd2
          rw [pyToLower_toNat] at h2
          split_ifs at h2 with h1 h3
          · omega
          · omega
          · exact absurd ((char_isDigit_iff c).mpr h2) (by rw [hd]; decide)

theorem digit_bne_hyphen {c : Char} (h : c.isDigit = true) :
    (c != hyphenSymbol) = true := by
  have hd := (char_isDigit_iff c).mp h
  have hne : c ≠ hyphenSymbol := by
    intro he
    rw [he] at hd
    revert hd
    decide
  simp [bne_iff_ne, hne]

/-! Arithmetic of two-decimal rounding. -/

theorem round2_pair_sum (fm fh : ℕ) (h1 : 1 ≤ fm) (h2 : 1 ≤ fh) :
    round2 fm (fm + fh) + round2 fh (fm + fh) = 100 := by
  set t := fm + fh with hT
  have ht : 0 < t := by omega
  have e1 : 100 * fm / t * t + 100 * fm % t = 100 * fm := Nat.div_add_mod' _ _
  have e2 : 100 * fh / t * t + 100 * fh % t = 100 * fh := Nat.div_add_mod' _ _
  set q1 := 100 * fm / t with hq1
  set r1 := 100 * fm % t with hr1
  set q2 := 100 * fh / t with hq2
  set r2 := 100 * fh % t with hr2
  have hr1t : r1 < t := Nat.mod_lt _ ht
  have hr2t : r2 < t := Nat.mod_lt _ ht
  have key : (q1 + q2) * t + (r1 + r2) = 100 * t := by
    have : q1 * t + r1 + (q2 * t + r2) = 100 * fm + 100 * fh := by
      rw [e1, e2]
    calc (q1 + q2) * t + (r1 + r2) = q1 * t + r1 + (q2 * t + r2) := by ring
      _ = 100 * fm + 100 * fh := this
      _ = 100 * t := by rw [hT]; ring
  have hs_le : q1 + q2 ≤ 100 := by
    by_contra hcon
    have hmul : 101 * t ≤ (q1 + q2) * t :=
      Nat.mul_le_mul_right t (by omega)
    omega
  have hs_ge : 99 ≤ q1 + q2 := by
    by_contra hcon
    have hmul : (q1 + q2) * t ≤ 98 * t :=
      Nat.mul_le_mul_right t (by omega)
    omega
  have hcases : (q1 + q2 = 100 ∧ r1 + r2 = 0) ∨
      (q1 + q2 = 99 ∧ r1 + r2 = t) := by
    rcases Nat.eq_or_lt_of_le hs_ge with hs | hs
    · right
      refine ⟨hs.symm, ?_⟩
      have : (q1 + q2) * t = 99 * t := by rw [← hs]
      omega
    · left
      have hs100 : q1 + q2 = 100 := by omega
      refine ⟨hs100, ?_⟩
      have : (q1 + q2) * t = 100 * t := by rw [hs100]
      omega
  simp only [round2, ← hq1, ← hr1, ← hq2, ← hr2]
  rcases hcases with ⟨hq, hr⟩ | ⟨hq, hr⟩ <;> split_ifs <;> omega

/-- Result of calculate_confidence_score when both words are present with
positive total frequency and the two words differ: the merged entry first,
then the hyphenated entry. -/
theorem calcConfidence_both {lex : Word → Option ℕ} {hyphW mw : Word}
    {mf hf : ℕ} (hm : lex mw = some mf) (hh : lex hyphW = some hf)
    (hpos : mf + hf ≠ 0) (hne : hyphW ≠ mw) :
    calcConfidence lex hyphW mw =
      .ok [(mw, round2 mf (mf + hf)), (hyphW, round2 hf (mf + hf))] := by
  simp only [calcConfidence, hm, hh, Option.getD_some]
  rw [if_neg hpos]
  simp [dictSet, (Ne.symm hne)]

/-- C1: for every lexicon holding both the merged form (frequency at least
1) and the hyphenated form (frequency at least 1),
calculate_confidence_score returns exactly the two-entry mapping with the
merged form scoring round(m/(m+h), 2) and the hyphenated form scoring
round(h/(m+h), 2) (in hundredths here), and the two confidences sum to
exactly 1.00. -/
theorem c1_confidence_pair (lex : Word → Option ℕ) (mw hyphW : Word)
    (mf hf : ℕ) (hm : lex mw = some mf) (hh : lex hyphW = some hf)
    (h1 : 1 ≤ mf) (h2 : 1 ≤ hf) (hne : hyphW ≠ mw) :
    calcConfidence lex hyphW mw =
      .ok [(mw, round2 mf (mf + hf)), (hyphW, round2 hf (mf + hf))] ∧
    round2 mf (mf + hf) + round2 hf (mf + hf) = 100 :=
  ⟨calcConfidence_both hm hh (by omega) hne, round2_pair_sum mf hf h1 h2⟩

/-- Witness for C1 at the e-mail/email doctest lexicon. -/
theorem c1_confidence_pair_witness :
    calcConfidence
      (fun x => if x = wstr "email" then some 570
                else if x = wstr "e-mail" then some 430 else none)
      (wstr "e-mail") (wstr "email") =
      .ok [(wstr "email", round2 570 (570 + 430)),
           (wstr "e-mail", round2 430 (570 + 430))] ∧
    round2 570 (570 + 430) + round2 430 (570 + 430) = 100 :=
  c1_confidence_pair _ (wstr "email") (wstr "e-mail") 570 430
    (by decide) (by decide) (by decide) (by decide) (by decide)

/-! Facts about the Python split and slice helpers. -/

theorem pySplit_ne_nil (sep : Char) (w : Word) : pySplit sep w ≠ [] := by
  cases w with
  | nil => simp [pySplit]
  | cons c rest =>
      simp only [pySplit]
      by_cases hc : c = sep
      · simp [hc]
      · simp only [if_neg hc]
        cases pySplit sep rest <;> simp

theorem pySplit_length (sep : Char) (w : Word) :
    (pySplit sep w).length = w.count sep + 1 := by
  induction w with
  | nil => simp [pySplit]
  | cons c rest ih =>
      simp only [pySplit]
      by_cases hc : c = sep
      · simp [hc, List.count_cons, List.length_cons, ih]
      · cases hps : pySplit sep rest with
        | nil => exact absurd hps (pySplit_ne_nil sep rest)
        | cons p ps' =>
            rw [hps] at ih
            simp only [List.length_cons] at ih
            simp only [if_neg hc, hps]
            have hbne : (c == sep) = false := by
              simp [hc]
            simp [List.count_cons, hbne]
            omega

theorem pySplit_no_sep {sep : Char} {w : Word} (h : ∀ c ∈ w, ¬c = sep) :
    pySplit sep w = [w] := by
  induction w with
  | nil => rfl
  | cons c rest ih =>
      have hc : ¬c = sep := h c (by simp)
      have hrest : pySplit sep rest = [rest] :=
        ih (fun d hd => h d (by simp [hd]))
      simp [pySplit, hc, hrest]

theorem lastSegPy_no_dash (w : Word) :
    ∀ c ∈ lastSegPy w, (c == '-') = false := by
  intro c hc
  unfold lastSegPy at hc
  rw [List.mem_reverse] at hc
  have hp := List.mem_takeWhile_imp hc
  simpa [bne] using hp

theorem count_map_pyToLower (tok : Word) :
    (tok.map pyToLower).count hyphenSymbol = tok.count hyphenSymbol := by
  rw [List.count_eq_countP, List.count_eq_countP, List.countP_map]
  refine List.countP_congr ?_
  intro c _
  simp only [Function.comp_apply, beq_iff_eq]
  exact pyToLower_eq_hyphen_iff c

/-! Facts about literal hyphens inside the normalized forms. -/

theorem dash_mem_hyphenatedOf {tok : Word} (h : '-' ∈ mergedOf tok) :
    '-' ∈ hyphenatedOf tok := by
  unfold mergedOf at h
  unfold hyphenatedOf
  have h1 : '-' ∈ tok.map pyToLower := (List.mem_filter.mp h).1
  exact List.mem_map.mpr ⟨'-', h1, by decide⟩

theorem subDigits_dash_mem (w : Word) : '-' ∈ subDigits w ↔ '-' ∈ w := by
  unfold subDigits
  constructor
  · intro h
    obtain ⟨c, hc, he⟩ := List.mem_map.mp h
    by_cases hd : c.isDigit = true
    · rw [if_pos hd] at he
      exact absurd he (by decide)
    · rw [if_neg hd] at he
      rwa [he] at hc
  · intro h
    exact List.mem_map.mpr ⟨'-', h, by decide⟩

theorem dash_mem_hyphenatedOf_of_ne {tok : Word}
    (h : mergedOf tok ≠ hyphenatedOf tok) : '-' ∈ hyphenatedOf tok := by
  by_contra hnd
  apply h
  unfold mergedOf hyphenatedOf at *
  set lw := tok.map pyToLower with hlw
  have hnp : ∀ c ∈ lw, ¬c = hyphenSymbol := by
    intro c hc he
    subst he
    exact hnd (List.mem_map.mpr ⟨hyphenSymbol, hc, by simp⟩)
  have hfil : lw.filter (fun c => c != hyphenSymbol) = lw :=
    List.filter_eq_self.mpr (fun a ha => bne_iff_ne.mpr (hnp a ha))
  have hmap : lw.map (fun c => if c = hyphenSymbol then '-' else c) = lw := by
    have hcong : ∀ a ∈ lw,
        (if a = hyphenSymbol then '-' else a) = id a := by
      intro a ha
      rw [if_neg (hnp a ha)]
      rfl
    rw [List.map_congr_left hcong, List.map_id]
  rw [hfil, hmap]

theorem mergedOf_ne_hyphenatedOf_of_mem {tok : Word}
    (h : hyphenSymbol ∈ tok.map pyToLower) :
    mergedOf tok ≠ hyphenatedOf tok := by
  intro he
  have hlen : (mergedOf tok).length < (hyphenatedOf tok).length := by
    unfold mergedOf hyphenatedOf
    rw [List.length_map]
    exact List.length_filter_lt_length_iff_exists.mpr
      ⟨hyphenSymbol, h, by simp⟩
  rw [he] at hlen
  exact lt_irrefl _ hlen

/-! Small dictionary computations. -/

theorem dictSet_pair_ne {a b : Word} {c1 c2 : ℕ} (h : a ≠ b) :
    dictSet [(a, c1)] b c2 = [(a, c1), (b, c2)] := by
  simp [dictSet, h]

theorem dictSet_pair_eq {a : Word} {c1 c2 : ℕ} :
    dictSet [(a, c1)] a c2 = [(a, c2)] := by
  simp [dictSet]

theorem remapConf_single {k : Word} {c : ℕ} {retH retM : Word} :
    remapConf [(k, c)] retH retM =
      if k.any (fun ch => ch == '-') then [(retH, c)] else [(retM, c)] := by
  unfold remapConf
  simp only [List.foldl]
  split_ifs <;> rfl

theorem remapConf_pair {k1 k2 : Word} {c1 c2 : ℕ} {retH retM : Word}
    (h1 : k1.any (fun ch => ch == '-') = false)
    (h2 : k2.any (fun ch => ch == '-') = true) :
    remapConf [(k1, c1), (k2, c2)] retH retM = dictSet [(retM, c1)] retH c2 := by
  unfold remapConf
  simp only [List.foldl, h1, h2]
  rfl

theorem remapConf_pair_both {k1 k2 : Word} {c1 c2 : ℕ} {retH retM : Word}
    (h1 : k1.any (fun ch => ch == '-') = true)
    (h2 : k2.any (fun ch => ch == '-') = true) :
    remapConf [(k1, c1), (k2, c2)] retH retM = [(retH, c2)] := by
  unfold remapConf
  simp only [List.foldl, h1, h2]
  simp [dictSet]

theorem remapConf_pair_swapped {k1 k2 : Word} {c1 c2 : ℕ} {retH retM : Word}
    (h1 : k1.any (fun ch => ch == '-') = true)
    (h2 : k2.any (fun ch => ch == '-') = false) :
    remapConf [(k1, c1), (k2, c2)] retH retM =
      dictSet [(retH, c1)] retM c2 := by
  unfold remapConf
  simp only [List.foldl, h1, h2]
  rfl

/-! Case analysis for the shared lookup cascade step. -/

theorem caseLookup_none_iff {lex : Word → Option ℕ}
    {lm lh retM retH : Word} {doRemap : Bool} :
    caseLookup lex lm lh retM retH doRemap = none ↔
      lex lm = none ∧ lex lh = none := by
  unfold caseLookup
  cases hm : lex lm <;> cases hh : lex lh <;> simp

theorem caseLookup_mergedOnly {lex : Word → Option ℕ}
    {lm lh retM retH : Word} {doRemap : Bool} {mf : ℕ}
    (hm : lex lm = some mf) (hh : lex lh = none) :
    caseLookup lex lm lh retM retH doRemap = some (.ok [(retM, 100)]) := by
  unfold caseLookup
  rw [hm, hh]
  simp

theorem caseLookup_hyphOnly {lex : Word → Option ℕ}
    {lm lh retM retH : Word} {doRemap : Bool} {hf : ℕ}
    (hm : lex lm = none) (hh : lex lh = some hf) :
    caseLookup lex lm lh retM retH doRemap = some (.ok [(retH, 100)]) := by
  unfold caseLookup
  rw [hm, hh]
  simp

theorem caseLookup_bothFound {lex : Word → Option ℕ}
    {lm lh retM retH : Word} {doRemap : Bool} {mf hf : ℕ}
    (hm : lex lm = some mf) (hh : lex lh = some hf) :
    caseLookup lex lm lh retM retH doRemap =
      some ((calcConfidence lex lh lm).map
        (fun confs => if doRemap then remapConf confs retH retM
                      else confs)) := by
  unfold caseLookup
  rw [hm, hh]
  simp

theorem calcConfidence_ok_shape {lex : Word → Option ℕ}
    {hyphW mw : Word} {confs : List (Word × ℕ)}
    (h : calcConfidence lex hyphW mw = .ok confs) :
    (∃ c1 c2, hyphW ≠ mw ∧ confs = [(mw, c1), (hyphW, c2)]) ∨
    (∃ c, hyphW = mw ∧ confs = [(mw, c)]) := by
  unfold calcConfidence at h
  cases hm : lex mw with
  | none =>
      rw [hm] at h
      exact absurd h (by simp)
  | some mf =>
      rw [hm] at h
      simp only [] at h
      by_cases hz : mf + (lex hyphW).getD 0 = 0
      · rw [if_pos hz] at h
        exact absurd h (by simp)
      · rw [if_neg hz] at h
        rw [Except.ok.injEq] at h
        by_cases he : hyphW = mw
        · subst he
          right
          refine ⟨round2 ((lex hyphW).getD 0) (mf + (lex hyphW).getD 0),
            rfl, ?_⟩
          rw [← h]
          simp [dictSet]
        · left
          refine ⟨round2 mf (mf + (lex hyphW).getD 0),
            round2 ((lex hyphW).getD 0) (mf + (lex hyphW).getD 0),
            he, ?_⟩
          rw [← h]
          simp [dictSet, Ne.symm he]

theorem calcConfidence_merged_zero {lex : Word → Option ℕ}
    {hyphW mw : Word} (hm : lex mw = none) :
    calcConfidence lex hyphW mw = .error .keyError := by
  unfold calcConfidence
  rw [hm]

theorem any_dash_iff (w : Word) :
    w.any (fun c => c == '-') = true ↔ '-' ∈ w := by
  simp [List.any_eq_true]

/-- Shape of every successful subword-stage result: one or two of the full
token forms; in the two-entry case of the swapped both-found call the
hyphenated form comes first. -/
theorem subwordOrDefault_ok_shape {lex : Word → Option ℕ} {tok : Word}
    {res : List (Word × ℕ)} (h : subwordOrDefault lex tok = .ok res) :
    (∃ c1 c2, res = [(mergedOf tok, c1), (hyphenatedOf tok, c2)]) ∨
    (∃ c1 c2, res = [(hyphenatedOf tok, c1), (mergedOf tok, c2)]) ∨
    (∃ c, res = [(mergedOf tok, c)]) ∨
    (∃ c, res = [(hyphenatedOf tok, c)]) := by
  unfold subwordOrDefault at h
  by_cases hdash : tok.any (fun c => c == '-') = true
  · rw [if_pos hdash] at h
    cases hsplit : pySplit hyphenSymbol (tok.map pyToLower) with
    | nil =>
        rw [hsplit] at h
        simp at h
    | cons left tail =>
        cases tail with
        | nil =>
            rw [hsplit] at h
            simp at h
        | cons right tail2 =>
            cases tail2 with
            | cons z rest =>
                rw [hsplit] at h
                simp at h
            | nil =>
                rw [hsplit] at h
                simp only [] at h
                cases hm : lex (lastSegPy left ++ firstSegPy right) with
                | none =>
                    rw [hm] at h
                    cases hh : lex (lastSegPy left ++ '-' ::
                        firstSegPy right) with
                    | none =>
                        rw [hh] at h
                        simp only [Option.isSome_none] at h
                        rw [if_neg (by decide), if_neg (by decide),
                            Except.ok.injEq] at h
                        exact Or.inr (Or.inr (Or.inl ⟨0, h.symm⟩))
                    | some hf =>
                        rw [hh] at h
                        simp only [Option.isSome_none,
                          Option.isSome_some] at h
                        rw [if_neg (by decide), if_pos (by decide),
                            Except.ok.injEq] at h
                        exact Or.inr (Or.inr (Or.inr ⟨100, h.symm⟩))
                | some mf =>
                    rw [hm] at h
                    simp only [Option.isSome_some] at h
                    rw [if_pos (by decide)] at h
                    cases hh : lex (lastSegPy left ++ '-' ::
                        firstSegPy right) with
                    | none =>
                        rw [hh] at h
                        simp only [Option.isSome_none] at h
                        rw [if_neg (by decide), Except.ok.injEq] at h
                        exact Or.inr (Or.inr (Or.inl ⟨100, h.symm⟩))
                    | some hf =>
                        rw [hh] at h
                        simp only [Option.isSome_some] at h
                        rw [if_pos (by decide)] at h
                        cases hcalc : calcConfidence lex
                            (lastSegPy left ++ firstSegPy right)
                            (lastSegPy left ++ '-' :: firstSegPy right) with
                        | error e =>
                            rw [hcalc] at h
                            simp [Except.map] at h
                        | ok confs =>
                            rw [hcalc] at h
                            simp only [Except.map] at h
                            rw [Except.ok.injEq] at h
                            have hsh : (lastSegPy left ++ '-' ::
                                firstSegPy right).any
                                  (fun c => c == '-') = true := by
                              simp
                            rcases calcConfidence_ok_shape hcalc with
                              ⟨c1, c2, hne, hconfs⟩ | ⟨c, heq, hconfs⟩
                            · subst hconfs
                              by_cases hsm : (lastSegPy left ++
                                  firstSegPy right).any
                                    (fun c => c == '-') = true
                              · rw [remapConf_pair_both hsh hsm] at h
                                exact Or.inr (Or.inr (Or.inr ⟨c2, h.symm⟩))
                              · have hsm' := Bool.eq_false_iff.mpr hsm
                                rw [remapConf_pair_swapped hsh hsm'] at h
                                by_cases hHM : hyphenatedOf tok =
                                    mergedOf tok
                                · rw [hHM, dictSet_pair_eq] at h
                                  exact Or.inr (Or.inr
                                    (Or.inl ⟨c2, h.symm⟩))
                                · rw [dictSet_pair_ne hHM] at h
                                  exact Or.inr (Or.inl ⟨c1, c2, h.symm⟩)
                            · subst hconfs
                              rw [remapConf_single, if_pos hsh] at h
                              exact Or.inr (Or.inr (Or.inr ⟨c, h.symm⟩))
  · rw [if_neg hdash] at h
    rw [Except.ok.injEq] at h
    exact Or.inr (Or.inr (Or.inl ⟨0, h.symm⟩))

/-- Shape of a successful whole-token (normal or digit case) lookup: the
merged form first when both candidates appear, or a single one of the
two. -/
theorem primary_ok_shape {lex : Word → Option ℕ} {tok : Word}
    {res : List (Word × ℕ)}
    (h : (if tok.any (fun c => c.isDigit) then
            caseLookup lex (subDigits (mergedOf tok))
              (subDigits (hyphenatedOf tok))
              (mergedOf tok) (hyphenatedOf tok) true
          else
            caseLookup lex (mergedOf tok) (hyphenatedOf tok)
              (mergedOf tok) (hyphenatedOf tok) false) = some (.ok res)) :
    (∃ c1 c2, res = [(mergedOf tok, c1), (hyphenatedOf tok, c2)]) ∨
    (∃ c, res = [(mergedOf tok, c)]) ∨
    (∃ c, res = [(hyphenatedOf tok, c)]) := by
  by_cases hd : tok.any (fun c => c.isDigit) = true
  · rw [if_pos hd] at h
    cases hm : lex (subDigits (mergedOf tok)) with
    | none =>
        cases hh : lex (subDigits (hyphenatedOf tok)) with
        | none =>
            rw [caseLookup_none_iff.mpr ⟨hm, hh⟩] at h
            simp at h
        | some hf =>
            rw [caseLookup_hyphOnly hm hh, Option.some.injEq,
                Except.ok.injEq] at h
            exact Or.inr (Or.inr ⟨100, h.symm⟩)
    | some mf =>
        cases hh : lex (subDigits (hyphenatedOf tok)) with
        | none =>
            rw [caseLookup_mergedOnly hm hh, Option.some.injEq,
                Except.ok.injEq] at h
            exact Or.inr (Or.inl ⟨100, h.symm⟩)
        | some hf =>
            rw [caseLookup_bothFound hm hh, Option.some.injEq] at h
            cases hcalc : calcConfidence lex (subDigits (hyphenatedOf tok))
                (subDigits (mergedOf tok)) with
            | error e =>
                rw [hcalc] at h
                simp [Except.map] at h
            | ok confs =>
                rw [hcalc] at h
                simp only [Except.map, if_true] at h
                rw [Except.ok.injEq] at h
                rcases calcConfidence_ok_shape hcalc with
                  ⟨c1, c2, hne, hconfs⟩ | ⟨c, heq, hconfs⟩
                · subst hconfs
                  by_cases hsm : (subDigits (mergedOf tok)).any
                      (fun c => c == '-') = true
                  · have hsh : (subDigits (hyphenatedOf tok)).any
                        (fun c => c == '-') = true := by
                      rw [any_dash_iff] at hsm ⊢
                      exact (subDigits_dash_mem _).mpr
                        (dash_mem_hyphenatedOf ((subDigits_dash_mem _).mp hsm))
                    rw [remapConf_pair_both hsm hsh] at h
                    exact Or.inr (Or.inr ⟨c2, h.symm⟩)
                  · have hMH : mergedOf tok ≠ hyphenatedOf tok := by
                      intro he
                      exact hne (by rw [he])
                    have hsh : (subDigits (hyphenatedOf tok)).any
                        (fun c => c == '-') = true := by
                      rw [any_dash_iff]
                      exact (subDigits_dash_mem _).mpr
                        (dash_mem_hyphenatedOf_of_ne hMH)
                    have hsm' := Bool.eq_false_iff.mpr hsm
                    rw [remapConf_pair hsm' hsh] at h
                    rw [dictSet_pair_ne hMH] at h
                    exact Or.inl ⟨c1, c2, h.symm⟩
                · subst hconfs
                  rw [remapConf_single] at h
                  by_cases hsm : (subDigits (mergedOf tok)).any
                      (fun c => c == '-') = true
                  · rw [if_pos hsm] at h
                    exact Or.inr (Or.inr ⟨c, h.symm⟩)
                  · rw [if_neg hsm] at h
                    exact Or.inr (Or.inl ⟨c, h.symm⟩)
  · rw [if_neg hd] at h
    cases hm : lex (mergedOf tok) with
    | none =>
        cases hh : lex (hyphenatedOf tok) with
        | none =>
            rw [caseLookup_none_iff.mpr ⟨hm, hh⟩] at h
            simp at h
        | some hf =>
            rw [caseLookup_hyphOnly hm hh, Option.some.injEq,
                Except.ok.injEq] at h
            exact Or.inr (Or.inr ⟨100, h.symm⟩)
    | some mf =>
        cases hh : lex (hyphenatedOf tok) with
        | none =>
            rw [caseLookup_mergedOnly hm hh, Option.some.injEq,
                Except.ok.injEq] at h
            exact Or.inr (Or.inl ⟨100, h.symm⟩)
        | some hf =>
            rw [caseLookup_bothFound hm hh, Option.some.injEq] at h
            cases hcalc : calcConfidence lex (hyphenatedOf tok)
                (mergedOf tok) with
            | error e =>
                rw [hcalc] at h
                simp [Except.map] at h
            | ok confs =>
                rw [hcalc] at h
                simp only [Except.map] at h
                rw [if_neg (show ¬((false : Bool) = true) by decide)] at h
                rw [Except.ok.injEq] at h
                rcases calcConfidence_ok_shape hcalc with
                  ⟨c1, c2, hne, hconfs⟩ | ⟨c, heq, hconfs⟩
                · subst hconfs
                  exact Or.inl ⟨c1, c2, h.symm⟩
                · subst hconfs
                  exact Or.inr (Or.inl ⟨c, h.symm⟩)

/-- Shape of every successful merge_and_lookup result: one or two of the
full token forms; the merged form comes first in a two-entry result of the
whole-token lookup, the hyphenated form first in a two-entry result of the
subword fallback. -/
theorem mergeAndLookup_ok_shape {lex : Word → Option ℕ} {tok : Word}
    {res : List (Word × ℕ)} (h : mergeAndLookup lex tok = .ok res) :
    (∃ c1 c2, res = [(mergedOf tok, c1), (hyphenatedOf tok, c2)]) ∨
    (∃ c1 c2, res = [(hyphenatedOf tok, c1), (mergedOf tok, c2)]) ∨
    (∃ c, res = [(mergedOf tok, c)]) ∨
    (∃ c, res = [(hyphenatedOf tok, c)]) := by
  unfold mergeAndLookup at h
  cases hp : (if tok.any (fun c => c.isDigit) then
                caseLookup lex (subDigits (mergedOf tok))
                  (subDigits (hyphenatedOf tok))
                  (mergedOf tok) (hyphenatedOf tok) true
              else
                caseLookup lex (mergedOf tok) (hyphenatedOf tok)
                  (mergedOf tok) (hyphenatedOf tok) false) with
  | none =>
      rw [hp] at h
      simp only [] at h
      exact subwordOrDefault_ok_shape h
  | some r =>
      rw [hp] at h
      simp only [] at h
      subst h
      rcases primary_ok_shape hp with hpair | hs1 | hs2
      · exact Or.inl hpair
      · exact Or.inr (Or.inr (Or.inl hs1))
      · exact Or.inr (Or.inr (Or.inr hs2))


/-! Digit preservation through the normalized forms. -/

theorem filter_digit_map_of {f : Char → Char}
    (hf1 : ∀ c, (f c).isDigit = c.isDigit)
    (hf2 : ∀ c, c.isDigit = true → f c = c) (l : Word) :
    (l.map f).filter Char.isDigit = l.filter Char.isDigit := by
  induction l with
  | nil => rfl
  | cons c rest ih =>
      simp only [List.map_cons, List.filter_cons, hf1 c]
      by_cases hd : c.isDigit = true
      · rw [if_pos hd, if_pos hd, hf2 c hd, ih]
      · rw [if_neg hd, if_neg hd, ih]

theorem dashOrKeep_isDigit (c : Char) :
    (if c = hyphenSymbol then '-' else c).isDigit = c.isDigit := by
  by_cases hc : c = hyphenSymbol
  · subst hc
    decide
  · rw [if_neg hc]

theorem dashOrKeep_digit {c : Char} (hd : c.isDigit = true) :
    (if c = hyphenSymbol then '-' else c) = c := by
  rw [if_neg]
  intro he
  subst he
  exact absurd hd (by decide)

theorem mergedOf_digits (tok : Word) :
    (mergedOf tok).filter Char.isDigit = tok.filter Char.isDigit := by
  unfold mergedOf
  rw [List.filter_filter]
  have hcong : ∀ a ∈ tok.map pyToLower,
      (Char.isDigit a && (a != hyphenSymbol)) = Char.isDigit a := by
    intro a _
    cases hd : a.isDigit with
    | false => simp
    | true => simp [digit_bne_hyphen hd]
  exact (List.filter_congr hcong).trans
    (filter_digit_map_of pyToLower_isDigit (fun c h => pyToLower_digit h) tok)

theorem hyphenatedOf_digits (tok : Word) :
    (hyphenatedOf tok).filter Char.isDigit = tok.filter Char.isDigit := by
  unfold hyphenatedOf
  rw [filter_digit_map_of dashOrKeep_isDigit (fun c h => dashOrKeep_digit h)]
  exact filter_digit_map_of pyToLower_isDigit (fun c h => pyToLower_digit h) tok

theorem mergedOf_no_digitSymbol (tok : Word) :
    (mergedOf tok).any (fun c => c == digitSymbol) = false := by
  rw [List.any_eq_false]
  intro x hx
  unfold mergedOf at hx
  obtain ⟨hx1, _⟩ := List.mem_filter.mp hx
  obtain ⟨c, _, hc⟩ := List.mem_map.mp hx1
  simp only [beq_iff_eq]
  rw [← hc]
  exact pyToLower_ne_digitSymbol c

theorem hyphenatedOf_no_digitSymbol (tok : Word) :
    (hyphenatedOf tok).any (fun c => c == digitSymbol) = false := by
  rw [List.any_eq_false]
  intro x hx
  unfold hyphenatedOf at hx
  obtain ⟨a, _, ha⟩ := List.mem_map.mp hx
  simp only [beq_iff_eq]
  rw [← ha]
  by_cases hc : a = hyphenSymbol
  · rw [if_pos hc]
    decide
  · rw [if_neg hc]
    obtain ⟨c, _, hc2⟩ := List.mem_map.mp (by assumption : a ∈ tok.map pyToLower)
    rw [← hc2]
    exact pyToLower_ne_digitSymbol c

theorem any_digit_mergedOf {tok : Word}
    (hd : tok.any (fun c => c.isDigit) = true) :
    (mergedOf tok).any (fun c => c.isDigit) = true := by
  rw [List.any_eq_true] at hd ⊢
  obtain ⟨c, hc, hcd⟩ := hd
  have hld : (pyToLower c).isDigit = true := by
    rw [pyToLower_isDigit]
    exact hcd
  refine ⟨pyToLower c, ?_, hld⟩
  unfold mergedOf
  exact List.mem_filter.mpr ⟨List.mem_map_of_mem _ hc, digit_bne_hyphen hld⟩

/-- C2: for every token containing at least one decimal digit, every key
of a successful merge_and_lookup result is one of the two original-digit
forms of the token (merged or hyphenated), contains no digit placeholder
glyph, and carries exactly the digit characters of the raw token; and the
concrete digit round-trip of the spec: a lexicon holding only the
substituted pattern resolves the 13-million-style token to a candidate
that literally carries the digits 13. -/
theorem c2_digit_roundtrip :
    (∀ (lex : Word → Option ℕ) (tok : Word) (res : List (Word × ℕ)),
       tok.any (fun c => c.isDigit) = true →
       mergeAndLookup lex tok = .ok res →
       ∀ kv ∈ res,
         (kv.1 = mergedOf tok ∨ kv.1 = hyphenatedOf tok) ∧
         kv.1.any (fun c => c == digitSymbol) = false ∧
         kv.1.filter Char.isDigit = tok.filter Char.isDigit) ∧
    mergeAndLookup
      (fun x => if x = digitSymbol :: digitSymbol :: wstr "-million"
                then some 42 else none)
      (wstr "13-milli" ++ hyphenSymbol :: wstr "on")
      = .ok [(wstr "13" ++ wstr "-million", 100)] := by
  constructor
  · intro lex tok res _ h kv hkv
    have hM : kv.1 = mergedOf tok →
        (kv.1 = mergedOf tok ∨ kv.1 = hyphenatedOf tok) ∧
        kv.1.any (fun c => c == digitSymbol) = false ∧
        kv.1.filter Char.isDigit = tok.filter Char.isDigit := by
      intro he
      rw [he]
      exact ⟨Or.inl rfl, mergedOf_no_digitSymbol tok, mergedOf_digits tok⟩
    have hH : kv.1 = hyphenatedOf tok →
        (kv.1 = mergedOf tok ∨ kv.1 = hyphenatedOf tok) ∧
        kv.1.any (fun c => c == digitSymbol) = false ∧
        kv.1.filter Char.isDigit = tok.filter Char.isDigit := by
      intro he
      rw [he]
      exact ⟨Or.inr rfl, hyphenatedOf_no_digitSymbol tok,
        hyphenatedOf_digits tok⟩
    rcases mergeAndLookup_ok_shape h with
      ⟨c1, c2, hres⟩ | ⟨c1, c2, hres⟩ | ⟨c0, hres⟩ | ⟨c0, hres⟩ <;>
      subst hres
    · rcases List.mem_cons.mp hkv with rfl | hkv2
      · exact hM rfl
      · rcases List.mem_cons.mp hkv2 with rfl | hkv3
        · exact hH rfl
        · cases hkv3
    · rcases List.mem_cons.mp hkv with rfl | hkv2
      · exact hH rfl
      · rcases List.mem_cons.mp hkv2 with rfl | hkv3
        · exact hM rfl
        · cases hkv3
    · rcases List.mem_cons.mp hkv with rfl | hkv2
      · exact hM rfl
      · cases hkv2
    · rcases List.mem_cons.mp hkv with rfl | hkv2
      · exact hH rfl
      · cases hkv2
  · decide

/-- Witness for C2 instantiating the universal part at the digit round-trip
example. -/
theorem c2_digit_roundtrip_witness :
    ((wstr "13" ++ wstr "-million", 100).1 =
       mergedOf (wstr "13-milli" ++ hyphenSymbol :: wstr "on") ∨
     (wstr "13" ++ wstr "-million", 100).1 =
       hyphenatedOf (wstr "13-milli" ++ hyphenSymbol :: wstr "on")) ∧
    (wstr "13" ++ wstr "-million", 100).1.any
      (fun c => c == digitSymbol) = false ∧
    (wstr "13" ++ wstr "-million", 100).1.filter Char.isDigit =
      (wstr "13-milli" ++ hyphenSymbol :: wstr "on").filter Char.isDigit :=
  c2_digit_roundtrip.1
    (fun x => if x = digitSymbol :: digitSymbol :: wstr "-million"
              then some 42 else none)
    (wstr "13-milli" ++ hyphenSymbol :: wstr "on")
    [(wstr "13" ++ wstr "-million", 100)]
    (by decide) (by decide) (wstr "13" ++ wstr "-million", 100) (by decide)

/-- C4: for every token whose merged form is in the lexicon while its
hyphenated form is not, merge_and_lookup returns exactly the single entry
mapping the merged form to confidence 1. The lexicon invariant of the data
model (digit-bearing words are stored digit-substituted, so no stored key
carries a raw digit) is assumed at the merged form. -/
theorem c4_merged_only (lex : Word → Option ℕ) (tok : Word) (fm : ℕ)
    (hinv : ∀ f, lex (mergedOf tok) = some f →
      (mergedOf tok).any (fun c => c.isDigit) = false)
    (hm : lex (mergedOf tok) = some fm)
    (hh : lex (hyphenatedOf tok) = none) :
    mergeAndLookup lex tok = .ok [(mergedOf tok, 100)] := by
  by_cases hd : tok.any (fun c => c.isDigit) = true
  · exfalso
    have hmd := any_digit_mergedOf hd
    rw [hinv fm hm] at hmd
    exact absurd hmd (by decide)
  · unfold mergeAndLookup
    rw [if_neg hd, caseLookup_mergedOnly hm hh]

/-- Witness for C4 on the aliens doctest: only the merged form is known. -/
theorem c4_merged_only_witness :
    mergeAndLookup (fun x => if x = wstr "aliens" then some 9 else none)
      (wstr "ali" ++ hyphenSymbol :: wstr "ens")
      = .ok [(mergedOf (wstr "ali" ++ hyphenSymbol :: wstr "ens"), 100)] :=
  c4_merged_only (fun x => if x = wstr "aliens" then some 9 else none)
    (wstr "ali" ++ hyphenSymbol :: wstr "ens") 9
    (fun _ _ => by decide) (by decide) (by decide)

/-! Reduction lemmas for the fallback path. -/

theorem mergeAndLookup_fallback {lex : Word → Option ℕ} {tok : Word}
    (h1 : lex (mergedOf tok) = none) (h2 : lex (hyphenatedOf tok) = none)
    (h3 : lex (subDigits (mergedOf tok)) = none)
    (h4 : lex (subDigits (hyphenatedOf tok)) = none) :
    mergeAndLookup lex tok = subwordOrDefault lex tok := by
  unfold mergeAndLookup
  by_cases hd : tok.any (fun c => c.isDigit) = true
  · rw [if_pos hd, caseLookup_none_iff.mpr ⟨h3, h4⟩]
  · rw [if_neg hd, caseLookup_none_iff.mpr ⟨h1, h2⟩]

theorem subwordOrDefault_two {lex : Word → Option ℕ} {tok left right : Word}
    (hdash : tok.any (fun c => c == '-') = true)
    (hsplit : pySplit hyphenSymbol (tok.map pyToLower) = [left, right]) :
    subwordOrDefault lex tok =
      (if (lex (lastSegPy left ++ firstSegPy right)).isSome then
         if (lex (lastSegPy left ++ '-' :: firstSegPy right)).isSome then
           (calcConfidence lex (lastSegPy left ++ firstSegPy right)
               (lastSegPy left ++ '-' :: firstSegPy right)).map
             (fun confs =>
               remapConf confs (hyphenatedOf tok) (mergedOf tok))
         else .ok [(mergedOf tok, 100)]
       else if (lex (lastSegPy left ++ '-' :: firstSegPy right)).isSome then
         .ok [(hyphenatedOf tok, 100)]
       else .ok [(mergedOf tok, 0)]) := by
  unfold subwordOrDefault
  rw [if_pos hdash, hsplit]

theorem append_cons_ne (pre suf : Word) : pre ++ '-' :: suf ≠ pre ++ suf := by
  intro he
  have hlen := congrArg List.length he
  simp [List.length_append] at hlen

theorem subword_merged_no_dash {left right : Word}
    (hsuf : (firstSegPy right).any (fun c => c == '-') = false) :
    (lastSegPy left ++ firstSegPy right).any (fun c => c == '-') = false := by
  rw [List.any_append]
  have ha : (lastSegPy left).any (fun c => c == '-') = false := by
    rw [List.any_eq_false]
    intro x hx
    rw [lastSegPy_no_dash left x hx]
    simp
  rw [ha, hsuf]
  rfl

theorem subword_hyph_dash (pre suf : Word) :
    (pre ++ '-' :: suf).any (fun c => c == '-') = true := by
  simp

theorem count_one_of_split {tok left right : Word}
    (hsplit : pySplit hyphenSymbol (tok.map pyToLower) = [left, right]) :
    (tok.map pyToLower).count hyphenSymbol = 1 := by
  have hl := pySplit_length hyphenSymbol (tok.map pyToLower)
  rw [hsplit] at hl
  simp at hl
  omega

theorem merged_ne_hyph_of_split {tok left right : Word}
    (hsplit : pySplit hyphenSymbol (tok.map pyToLower) = [left, right]) :
    mergedOf tok ≠ hyphenatedOf tok := by
  have hc := count_one_of_split hsplit
  have hmem : hyphenSymbol ∈ tok.map pyToLower :=
    List.count_pos_iff.mp (by omega)
  exact mergedOf_ne_hyphenatedOf_of_mem hmem

theorem topCandidate_pair_same (a b : Word) (c : ℕ) :
    topCandidate [(a, c), (b, c)] = some (a, c) := by
  simp [topCandidate, sortDesc, insertDesc]

/-- The both-found subword result of merge_and_lookup: the swapped
calculate_confidence_score call makes the full hyphenated form the first
entry, each full form carrying its own subword confidence. -/
theorem subword_both_result {lex : Word → Option ℕ} {tok left right : Word}
    {fm fh : ℕ}
    (h1 : lex (mergedOf tok) = none) (h2 : lex (hyphenatedOf tok) = none)
    (h3 : lex (subDigits (mergedOf tok)) = none)
    (h4 : lex (subDigits (hyphenatedOf tok)) = none)
    (hdash : tok.any (fun c => c == '-') = true)
    (hsplit : pySplit hyphenSymbol (tok.map pyToLower) = [left, right])
    (hsuf : (firstSegPy right).any (fun c => c == '-') = false)
    (hfm1 : 1 ≤ fm) (hfh1 : 1 ≤ fh)
    (hfm : lex (lastSegPy left ++ firstSegPy right) = some fm)
    (hfh : lex (lastSegPy left ++ '-' :: firstSegPy right) = some fh) :
    mergeAndLookup lex tok =
      .ok [(hyphenatedOf tok, round2 fh (fh + fm)),
           (mergedOf tok, round2 fm (fh + fm))] := by
  rw [mergeAndLookup_fallback h1 h2 h3 h4,
      subwordOrDefault_two hdash hsplit, hfm, hfh]
  simp only [Option.isSome_some]
  rw [if_pos (by decide), if_pos (by decide)]
  rw [calcConfidence_both hfh hfm (by omega)
      (Ne.symm (append_cons_ne _ _))]
  simp only [Except.map]
  rw [remapConf_pair_swapped (by simp) (subword_merged_no_dash hsuf)]
  rw [dictSet_pair_ne (Ne.symm (merged_ne_hyph_of_split hsplit))]

/-- The merged-only subword result of merge_and_lookup: the full merged
form with confidence 1. -/
theorem subword_mergedOnly_result {lex : Word → Option ℕ}
    {tok left right : Word} {fm : ℕ}
    (h1 : lex (mergedOf tok) = none) (h2 : lex (hyphenatedOf tok) = none)
    (h3 : lex (subDigits (mergedOf tok)) = none)
    (h4 : lex (subDigits (hyphenatedOf tok)) = none)
    (hdash : tok.any (fun c => c == '-') = true)
    (hsplit : pySplit hyphenSymbol (tok.map pyToLower) = [left, right])
    (hfm : lex (lastSegPy left ++ firstSegPy right) = some fm)
    (hnone : lex (lastSegPy left ++ '-' :: firstSegPy right) = none) :
    mergeAndLookup lex tok = .ok [(mergedOf tok, 100)] := by
  rw [mergeAndLookup_fallback h1 h2 h3 h4,
      subwordOrDefault_two hdash hsplit, hfm, hnone]
  simp only [Option.isSome_some, Option.isSome_none]
  rw [if_pos (by decide), if_neg (by decide)]

/-- C6 as amended: a whole-token resolution with equal confidences lists
the merged form first and the stable descending sort of the harness
selects it, so MERGE is the tie default for whole-token results; in the
subword both-found case the swapped calculate_confidence_score call lists
the hyphenated form first, and an equal-confidence tie there selects the
hyphenated form (KEEP). -/
theorem c6_amended_tie_default :
    (∀ (lex : Word → Option ℕ) (tok : Word) (res : List (Word × ℕ))
       (c : ℕ),
       (if tok.any (fun ch => ch.isDigit) then
          caseLookup lex (subDigits (mergedOf tok))
            (subDigits (hyphenatedOf tok))
            (mergedOf tok) (hyphenatedOf tok) true
        else
          caseLookup lex (mergedOf tok) (hyphenatedOf tok)
            (mergedOf tok) (hyphenatedOf tok) false) = some (.ok res) →
       (mergedOf tok, c) ∈ res → (hyphenatedOf tok, c) ∈ res →
       mergedOf tok ≠ hyphenatedOf tok →
       mergeAndLookup lex tok = .ok res ∧
       res = [(mergedOf tok, c), (hyphenatedOf tok, c)] ∧
       topCandidate res = some (mergedOf tok, c)) ∧
    (∀ (lex : Word → Option ℕ) (tok left right : Word) (fm fh : ℕ),
       lex (mergedOf tok) = none → lex (hyphenatedOf tok) = none →
       lex (subDigits (mergedOf tok)) = none →
       lex (subDigits (hyphenatedOf tok)) = none →
       tok.any (fun ch => ch == '-') = true →
       pySplit hyphenSymbol (tok.map pyToLower) = [left, right] →
       (firstSegPy right).any (fun ch => ch == '-') = false →
       1 ≤ fm → 1 ≤ fh →
       lex (lastSegPy left ++ firstSegPy right) = some fm →
       lex (lastSegPy left ++ '-' :: firstSegPy right) = some fh →
       round2 fh (fh + fm) = round2 fm (fh + fm) →
       mergeAndLookup lex tok =
         .ok [(hyphenatedOf tok, round2 fh (fh + fm)),
              (mergedOf tok, round2 fm (fh + fm))] ∧
       topCandidate [(hyphenatedOf tok, round2 fh (fh + fm)),
           (mergedOf tok, round2 fm (fh + fm))] =
         some (hyphenatedOf tok, round2 fh (fh + fm))) := by
  constructor
  · intro lex tok res c hprim hmm hhm hne
    have hml : mergeAndLookup lex tok = .ok res := by
      unfold mergeAndLookup
      rw [hprim]
    have hres2 : res = [(mergedOf tok, c), (hyphenatedOf tok, c)] := by
      rcases primary_ok_shape hprim with
        ⟨c1, c2, hres⟩ | ⟨c0, hres⟩ | ⟨c0, hres⟩ <;> subst hres
      · have hc1 : c = c1 := by
          rcases List.mem_cons.mp hmm with he | hm2
          · exact (Prod.mk.injEq _ _ _ _ ▸ he).2
          · rcases List.mem_cons.mp hm2 with he | hm3
            · exact absurd (Prod.mk.injEq _ _ _ _ ▸ he).1 hne
            · cases hm3
        have hc2 : c = c2 := by
          rcases List.mem_cons.mp hhm with he | hh2
          · exact absurd (Prod.mk.injEq _ _ _ _ ▸ he).1 (Ne.symm hne)
          · rcases List.mem_cons.mp hh2 with he | hh3
            · exact (Prod.mk.injEq _ _ _ _ ▸ he).2
            · cases hh3
        subst hc1
        subst hc2
        rfl
      · rcases List.mem_cons.mp hhm with he | hh2
        · exact absurd (Prod.mk.injEq _ _ _ _ ▸ he).1 (Ne.symm hne)
        · cases hh2
      · rcases List.mem_cons.mp hmm with he | hm2
        · exact absurd (Prod.mk.injEq _ _ _ _ ▸ he).1 hne
        · cases hm2
    refine ⟨hml, hres2, ?_⟩
    rw [hres2]
    exact topCandidate_pair_same _ _ _
  · intro lex tok left right fm fh h1 h2 h3 h4 hdash hsplit hsuf
      hfm1 hfh1 hfm hfh heq
    refine ⟨subword_both_result h1 h2 h3 h4 hdash hsplit hsuf
      hfm1 hfh1 hfm hfh, ?_⟩
    rw [← heq]
    exact topCandidate_pair_same _ _ _

/-- Witness for the amended C6 at a whole-token tie: equal frequencies
give both candidates 0.50 and the merged form wins. -/
theorem c6_amended_tie_default_witness :
    mergeAndLookup
      (fun x => if x = wstr "ab" then some 3
                else if x = wstr "a-b" then some 3 else none)
      ('a' :: hyphenSymbol :: wstr "b")
      = .ok [(wstr "ab", 50), (wstr "a-b", 50)] ∧
    [(wstr "ab", 50), (wstr "a-b", 50)] =
      [(mergedOf ('a' :: hyphenSymbol :: wstr "b"), 50),
       (hyphenatedOf ('a' :: hyphenSymbol :: wstr "b"), 50)] ∧
    topCandidate [(wstr "ab", 50), (wstr "a-b", 50)] =
      some (mergedOf ('a' :: hyphenSymbol :: wstr "b"), 50) :=
  c6_amended_tie_default.1
    (fun x => if x = wstr "ab" then some 3
              else if x = wstr "a-b" then some 3 else none)
    ('a' :: hyphenSymbol :: wstr "b")
    [(wstr "ab", 50), (wstr "a-b", 50)] 50
    (by decide) (by decide) (by decide) (by decide)

/-- Counterexample to C6 as frozen: in the subword both-found case the
program inserts the hyphenated form first, and on an equal-confidence tie
the stable descending sort of the harness selects the hyphenated form,
KEEP, not MERGE: long(placeholder)time-xyz against equal frequencies of
longtime and long-time. -/
theorem c6_tie_keep_counterexample :
    mergeAndLookup
      (fun x => if x = wstr "longtime" then some 5
                else if x = wstr "long-time" then some 5 else none)
      (wstr "long" ++ hyphenSymbol :: wstr "time-xyz")
      = .ok [(wstr "long-time-xyz", 50), (wstr "longtime-xyz", 50)] ∧
    wstr "long-time-xyz" =
      hyphenatedOf (wstr "long" ++ hyphenSymbol :: wstr "time-xyz") ∧
    wstr "longtime-xyz" =
      mergedOf (wstr "long" ++ hyphenSymbol :: wstr "time-xyz") ∧
    wstr "long-time-xyz" ≠ wstr "longtime-xyz" ∧
    topCandidate [(wstr "long-time-xyz", 50), (wstr "longtime-xyz", 50)]
      = some (wstr "long-time-xyz", 50) := by
  refine ⟨?_, ?_, ?_, ?_, ?_⟩ <;> decide

/-- C3: when every whole-token lookup fails and the token carries a literal
hyphen, merge_and_lookup splits on the placeholder, forms the subword from
the last hyphen-bounded segment of the left half and the first
hyphen-bounded segment of the right half, looks that subword up merged and
hyphenated, and on success returns the full token merged and hyphenated
forms, each carrying its own subword confidence (the swapped
calculate_confidence_score call lists the hyphenated form first); in
particular the multi-million-dollar doctest resolves through the subword
million to confidence 1. -/
theorem c3_subword_fallback (lex : Word → Option ℕ) (tok left right : Word)
    (h1 : lex (mergedOf tok) = none) (h2 : lex (hyphenatedOf tok) = none)
    (h3 : lex (subDigits (mergedOf tok)) = none)
    (h4 : lex (subDigits (hyphenatedOf tok)) = none)
    (hdash : tok.any (fun c => c == '-') = true)
    (hsplit : pySplit hyphenSymbol (tok.map pyToLower) = [left, right])
    (hsuf : (firstSegPy right).any (fun c => c == '-') = false) :
    (∀ fm fh, 1 ≤ fm → 1 ≤ fh →
       lex (lastSegPy left ++ firstSegPy right) = some fm →
       lex (lastSegPy left ++ '-' :: firstSegPy right) = some fh →
       mergeAndLookup lex tok =
         .ok [(hyphenatedOf tok, round2 fh (fh + fm)),
              (mergedOf tok, round2 fm (fh + fm))]) ∧
    (∀ fm, lex (lastSegPy left ++ firstSegPy right) = some fm →
       lex (lastSegPy left ++ '-' :: firstSegPy right) = none →
       mergeAndLookup lex tok = .ok [(mergedOf tok, 100)]) ∧
    mergeAndLookup (fun x => if x = wstr "million" then some 7 else none)
      (wstr "multi-mil" ++ hyphenSymbol :: wstr "lion-dollar")
      = .ok [(wstr "multi-million-dollar", 100)] := by
  refine ⟨?_, ?_, by decide⟩
  · intro fm fh hfm1 hfh1 hfm hfh
    exact subword_both_result h1 h2 h3 h4 hdash hsplit hsuf
      hfm1 hfh1 hfm hfh
  · intro fm hfm hnone
    exact subword_mergedOnly_result h1 h2 h3 h4 hdash hsplit hfm hnone

/-- Witness for C3 at the multi-million-dollar doctest. -/
theorem c3_subword_fallback_witness :
    mergeAndLookup (fun x => if x = wstr "million" then some 7 else none)
        (wstr "multi-mil" ++ hyphenSymbol :: wstr "lion-dollar")
      = .ok [(mergedOf (wstr "multi-mil" ++ hyphenSymbol ::
                wstr "lion-dollar"), 100)] :=
  (c3_subword_fallback
    (fun x => if x = wstr "million" then some 7 else none)
    (wstr "multi-mil" ++ hyphenSymbol :: wstr "lion-dollar")
    (wstr "multi-mil") (wstr "lion-dollar")
    (by decide) (by decide) (by decide) (by decide) (by decide)
    (by decide) (by decide)).2.1 7 (by decide) (by decide)

/-- C5: when the lookup cascade completes (no literal hyphen, or exactly
one placeholder so the split succeeds) and no looked-up form is in the
lexicon, merge_and_lookup returns the unresolved sentinel, the merged form
with confidence 0, and raises no exception. -/
theorem c5_unresolved_sentinel (lex : Word → Option ℕ) (tok : Word)
    (h1 : lex (mergedOf tok) = none) (h2 : lex (hyphenatedOf tok) = none)
    (h3 : lex (subDigits (mergedOf tok)) = none)
    (h4 : lex (subDigits (hyphenatedOf tok)) = none)
    (hcomplete : tok.any (fun c => c == '-') = false ∨
       (tok.map pyToLower).count hyphenSymbol = 1)
    (hsub : ∀ left right,
       pySplit hyphenSymbol (tok.map pyToLower) = [left, right] →
       lex (lastSegPy left ++ firstSegPy right) = none ∧
       lex (lastSegPy left ++ '-' :: firstSegPy right) = none) :
    mergeAndLookup lex tok = .ok [(mergedOf tok, 0)] := by
  rw [mergeAndLookup_fallback h1 h2 h3 h4]
  by_cases hdash : tok.any (fun c => c == '-') = true
  · rcases hcomplete with hno | hc1
    · exact absurd hdash (by rw [hno]; decide)
    · have hlen2 : (pySplit hyphenSymbol (tok.map pyToLower)).length = 2 := by
        rw [pySplit_length, hc1]
      cases hps : pySplit hyphenSymbol (tok.map pyToLower) with
      | nil => rw [hps] at hlen2; simp at hlen2
      | cons left tail =>
          cases tail with
          | nil => rw [hps] at hlen2; simp at hlen2
          | cons right tail2 =>
              cases tail2 with
              | cons z rest => rw [hps] at hlen2; simp at hlen2
              | nil =>
                  obtain ⟨hsm, hsh⟩ := hsub left right hps
                  rw [subwordOrDefault_two hdash hps, hsm, hsh]
                  simp only [Option.isSome_none]
                  rw [if_neg (by decide), if_neg (by decide)]
  · unfold subwordOrDefault
    rw [if_neg hdash]

/-- Witness for C5 at the empty lexicon and a digit-free token without a
literal hyphen. -/
theorem c5_unresolved_sentinel_witness :
    mergeAndLookup (fun _ => none) ('a' :: hyphenSymbol :: wstr "b")
      = .ok [(mergedOf ('a' :: hyphenSymbol :: wstr "b"), 0)] :=
  c5_unresolved_sentinel (fun _ => none) ('a' :: hyphenSymbol :: wstr "b")
    rfl rfl rfl rfl (Or.inl (by decide))
    (fun _ _ _ => ⟨rfl, rfl⟩)

/-- C10: a token holding the placeholder at least twice together with a
literal hyphen, whose whole-token lookups all fail, makes merge_and_lookup
raise ValueError at the two-way split on the placeholder instead of
returning a resolution result. -/
theorem c10_double_placeholder_value_error (lex : Word → Option ℕ)
    (tok : Word)
    (hcount : 2 ≤ tok.count hyphenSymbol)
    (hdash : tok.any (fun c => c == '-') = true)
    (h1 : lex (mergedOf tok) = none) (h2 : lex (hyphenatedOf tok) = none)
    (h3 : lex (subDigits (mergedOf tok)) = none)
    (h4 : lex (subDigits (hyphenatedOf tok)) = none) :
    mergeAndLookup lex tok = .error .valueError := by
  rw [mergeAndLookup_fallback h1 h2 h3 h4]
  unfold subwordOrDefault
  rw [if_pos hdash]
  have hcnt : 2 ≤ (tok.map pyToLower).count hyphenSymbol := by
    rw [count_map_pyToLower]
    exact hcount
  have hlen : 3 ≤ (pySplit hyphenSymbol (tok.map pyToLower)).length := by
    rw [pySplit_length]
    omega
  cases hps : pySplit hyphenSymbol (tok.map pyToLower) with
  | nil => rfl
  | cons a tail =>
      cases tail with
      | nil => rfl
      | cons b tail2 =>
          cases tail2 with
          | nil =>
              rw [hps] at hlen
              simp at hlen
          | cons z rest => rfl

/-- Witness for C10 at a token with two placeholders and a literal hyphen
against the empty lexicon. -/
theorem c10_double_placeholder_value_error_witness :
    mergeAndLookup (fun _ => none)
      (wstr "a-b" ++ hyphenSymbol :: 'c' :: hyphenSymbol :: wstr "d")
      = .error .valueError :=
  c10_double_placeholder_value_error (fun _ => none)
    (wstr "a-b" ++ hyphenSymbol :: 'c' :: hyphenSymbol :: wstr "d")
    (by decide) (by decide) rfl rfl rfl rfl

/-! The language-model decision rule. -/

theorem roundHalfEvenQ_intCast (n : ℤ) : roundHalfEvenQ (n : ℚ) = n := by
  unfold roundHalfEvenQ
  rw [Int.floor_intCast, sub_self]
  rw [if_pos (by norm_num)]

/-- C7: the language-model strategy keeps the hyphen exactly when the
rounded probability delta clears the asymmetric thresholds: strictly above
0.01 when prob_v1 is above 0.5, and at least 0.1 otherwise; stated in
hundredths for already-rounded probabilities, with both spec scenarios. -/
theorem c7_lm_threshold :
    (∀ a b : ℤ,
       predictionKeepHyphen ((b : ℚ) / 100) ((a : ℚ) / 100) = true ↔
       (if (1 : ℚ) / 2 < (b : ℚ) / 100 then 1 < b - a else 10 ≤ b - a)) ∧
    predictionKeepHyphen (80 / 100) (60 / 100) = true ∧
    predictionKeepHyphen (40 / 100) (38 / 100) = false := by
  have hchar : ∀ a b : ℤ,
      predictionKeepHyphen ((b : ℚ) / 100) ((a : ℚ) / 100) = true ↔
      (if (1 : ℚ) / 2 < (b : ℚ) / 100 then 1 < b - a else 10 ≤ b - a) := by
    intro a b
    unfold predictionKeepHyphen
    have hdiff : (b : ℚ) / 100 - (a : ℚ) / 100 = ((b - a : ℤ) : ℚ) / 100 := by
      push_cast
      ring
    rw [hdiff]
    have hr : roundQ2 (((b - a : ℤ) : ℚ) / 100) = ((b - a : ℤ) : ℚ) / 100 := by
      unfold roundQ2
      have h100 : (100 : ℚ) * (((b - a : ℤ) : ℚ) / 100) =
          ((b - a : ℤ) : ℚ) := by ring
      rw [h100, roundHalfEvenQ_intCast]
    rw [hr]
    by_cases hp : (1 : ℚ) / 2 < (b : ℚ) / 100
    · rw [if_pos hp, if_pos hp]
      simp only [gt_iff_lt, decide_eq_true_eq]
      rw [div_lt_div_iff₀ (by norm_num) (by norm_num)]
      constructor
      · intro h
        have h2 : (1 : ℚ) < ((b - a : ℤ) : ℚ) := by linarith
        exact_mod_cast h2
      · intro h
        have h2 : (1 : ℚ) < ((b - a : ℤ) : ℚ) := by exact_mod_cast h
        linarith
    · rw [if_neg hp, if_neg hp]
      simp only [ge_iff_le, decide_eq_true_eq]
      rw [div_le_div_iff₀ (by norm_num) (by norm_num)]
      constructor
      · intro h
        have h2 : (10 : ℚ) ≤ ((b - a : ℤ) : ℚ) := by linarith
        exact_mod_cast h2
      · intro h
        have h2 : (10 : ℚ) ≤ ((b - a : ℤ) : ℚ) := by exact_mod_cast h
        linarith
  refine ⟨hchar, ?_, ?_⟩
  · have h := hchar 60 80
    rw [if_pos (by norm_num : (1 : ℚ) / 2 < ((80 : ℤ) : ℚ) / 100)] at h
    have h2 := h.mpr (by norm_num)
    have hcast : (((80 : ℤ) : ℚ) / 100) = ((80 : ℚ) / 100) := by norm_num
    have hcast2 : (((60 : ℤ) : ℚ) / 100) = ((60 : ℚ) / 100) := by norm_num
    rwa [hcast, hcast2] at h2
  · have h := hchar 38 40
    rw [if_neg (by norm_num : ¬((1 : ℚ) / 2 < ((40 : ℤ) : ℚ) / 100))] at h
    have h2 : predictionKeepHyphen (((40 : ℤ) : ℚ) / 100)
        (((38 : ℤ) : ℚ) / 100) = false := by
      cases hb : predictionKeepHyphen (((40 : ℤ) : ℚ) / 100)
          (((38 : ℤ) : ℚ) / 100) with
      | false => rfl
      | true => exact absurd (h.mp hb) (by norm_num)
    have hcast : (((40 : ℤ) : ℚ) / 100) = ((40 : ℚ) / 100) := by norm_num
    have hcast2 : (((38 : ℤ) : ℚ) / 100) = ((38 : ℚ) / 100) := by norm_num
    rwa [hcast, hcast2] at h2

/-! The counter discipline of the language-model evaluation pass. -/

theorem lmUpdate_confSum (s : LMCounters) (st : LMStep) :
    confSum (lmUpdate s st) = confSum s + 1 := by
  unfold lmUpdate confSum
  split_ifs <;> simp <;> omega

theorem lmUpdate_ambSum (s : LMCounters) (st : LMStep) :
    ambSum (lmUpdate s st) = ambSum s + 1 := by
  unfold lmUpdate ambSum
  split_ifs <;> simp <;> omega

theorem lmUpdate_mono (s : LMCounters) (st : LMStep) :
    countersLE s (lmUpdate s st) := by
  unfold lmUpdate countersLE
  split_ifs <;> simp

theorem lmFold_confSum (steps : List LMStep) :
    ∀ s, confSum (steps.foldl lmUpdate s) = confSum s + steps.length := by
  induction steps with
  | nil =>
      intro s
      simp
  | cons st rest ih =>
      intro s
      rw [List.foldl_cons, ih, lmUpdate_confSum]
      simp only [List.length_cons]
      omega

theorem lmFold_ambSum (steps : List LMStep) :
    ∀ s, ambSum (steps.foldl lmUpdate s) = ambSum s + steps.length := by
  induction steps with
  | nil =>
      intro s
      simp
  | cons st rest ih =>
      intro s
      rw [List.foldl_cons, ih, lmUpdate_ambSum]
      simp only [List.length_cons]
      omega

/-- C8 as amended: over any run from the zero counters, the ambiguous
matrix total always equals the confusion matrix total and both equal the
number of processed words; each word increments exactly one cell of each
matrix and no counter is ever decremented; a misprediction is reclassified
into the correct ambiguous cell exactly when both probabilities are at or
above the 0.75 threshold, and lands in the error ambiguous cell
otherwise. -/
theorem c8_amended_counters :
    (∀ steps : List LMStep,
       ambSum (steps.foldl lmUpdate lmInit) =
         confSum (steps.foldl lmUpdate lmInit) ∧
       confSum (steps.foldl lmUpdate lmInit) = steps.length) ∧
    (∀ (s : LMCounters) (st : LMStep),
       confSum (lmUpdate s st) = confSum s + 1 ∧
       ambSum (lmUpdate s st) = ambSum s + 1 ∧
       countersLE s (lmUpdate s st)) ∧
    (∀ (s : LMCounters) (st : LMStep), st.correct = false →
       ((3 / 4 ≤ st.p0 ∧ 3 / 4 ≤ st.p1) →
          (st.keep = true → (lmUpdate s st).v0v0A = s.v0v0A + 1 ∧
             (lmUpdate s st).v1v0 = s.v1v0 + 1) ∧
          (st.keep = false → (lmUpdate s st).v1v1A = s.v1v1A + 1 ∧
             (lmUpdate s st).v0v1 = s.v0v1 + 1)) ∧
       (¬(3 / 4 ≤ st.p0 ∧ 3 / 4 ≤ st.p1) →
          (st.keep = true → (lmUpdate s st).v1v0A = s.v1v0A + 1) ∧
          (st.keep = false → (lmUpdate s st).v0v1A = s.v0v1A + 1))) := by
  refine ⟨?_, ?_, ?_⟩
  · intro steps
    constructor
    · rw [lmFold_confSum, lmFold_ambSum]
      simp [ambSum, confSum, lmInit]
    · rw [lmFold_confSum]
      simp [confSum, lmInit]
  · intro s st
    exact ⟨lmUpdate_confSum s st, lmUpdate_ambSum s st, lmUpdate_mono s st⟩
  · intro s st hc
    constructor
    · intro hab
      constructor
      · intro hk
        constructor <;> simp [lmUpdate, hc, hk, hab]
      · intro hk
        constructor <;> simp [lmUpdate, hc, hk, hab]
    · intro hnab
      constructor
      · intro hk
        simp [lmUpdate, hc, hk, hnab]
      · intro hk
        simp [lmUpdate, hc, hk, hnab]

/-- Witness for the amended C8 at a misprediction with both probabilities
exactly at the threshold. -/
theorem c8_amended_counters_witness :
    (lmUpdate lmInit ⟨true, false, 3 / 4, 3 / 4⟩).v0v0A =
      lmInit.v0v0A + 1 ∧
    (lmUpdate lmInit ⟨true, false, 3 / 4, 3 / 4⟩).v1v0 =
      lmInit.v1v0 + 1 :=
  (((c8_amended_counters.2.2 lmInit ⟨true, false, 3 / 4, 3 / 4⟩ rfl).1
    ⟨le_refl _, le_refl _⟩).1) rfl

/-- Counterexample to C8 as frozen: with both probabilities exactly 0.75,
neither exceeds the threshold strictly, yet the mispredicted keep decision
is reclassified into the correct ambiguous cell v0v0A and not counted in
the error ambiguous cell v1v0A. -/
theorem c8_exceed_counterexample :
    ¬((3 : ℚ) / 4 > 3 / 4) ∧
    (lmUpdate lmInit ⟨true, false, 3 / 4, 3 / 4⟩).v0v0A = 1 ∧
    (lmUpdate lmInit ⟨true, false, 3 / 4, 3 / 4⟩).v1v0A = 0 := by
  refine ⟨by norm_num, ?_, ?_⟩ <;> simp [lmUpdate, lmInit]

/-! Malformed-line behavior of the loaders. -/

theorem parseLexLine_error_eq {line : Word} {e : PyErr}
    (h : parseLexLine line = .error e) : e = .valueError := by
  unfold parseLexLine at h
  cases hps : pySplit '\t' (pyStrip line) with
  | nil =>
      rw [hps] at h
      simp at h
      exact h.symm
  | cons a tail =>
      cases tail with
      | nil =>
          rw [hps] at h
          simp at h
          exact h.symm
      | cons b tail2 =>
          cases tail2 with
          | cons z rest =>
              rw [hps] at h
              simp at h
              exact h.symm
          | nil =>
              rw [hps] at h
              simp only [] at h
              cases hpi : pyInt b with
              | none =>
                  rw [hpi] at h
                  simp at h
                  exact h.symm
              | some n =>
                  rw [hpi] at h
                  simp at h

theorem loadFrom_error {line : Word}
    (hline : parseLexLine line = .error .valueError) :
    ∀ (lines : List Word) (d : List (Word × ℤ)), line ∈ lines →
      loadFrom d lines = .error .valueError := by
  intro lines
  induction lines with
  | nil =>
      intro d hmem
      cases hmem
  | cons l rest ih =>
      intro d hmem
      cases hl : parseLexLine l with
      | error e =>
          unfold loadFrom
          rw [hl, parseLexLine_error_eq hl]
      | ok kv =>
          obtain ⟨wd, f⟩ := kv
          rcases List.mem_cons.mp hmem with rfl | hmem2
          · rw [hline] at hl
            cases hl
          · unfold loadFrom
            rw [hl]
            exact ih (dictSet d wd f) hmem2

theorem datasetLineParts_no_tab {line : Word}
    (h : line.any (fun c => c == '\t') = false) :
    datasetLineParts line = .error .indexError := by
  have hsplit : pySplit '\t' line = [line] := by
    refine pySplit_no_sep ?_
    intro c hc he
    have hfalse := List.any_eq_false.mp h c hc
    rw [he] at hfalse
    simp at hfalse
  unfold datasetLineParts
  rw [hsplit]

/-- C9 as amended: a malformed lexicon line makes the whole word-list load
raise ValueError, and a dataset line without a tab separator makes the
evaluation pass raise IndexError; neither reader logs and skips. -/
theorem c9_malformed_aborts (lines : List Word) (line : Word)
    (hmem : line ∈ lines)
    (hbad : parseLexLine line = .error .valueError) :
    loadWordList lines = .error .valueError ∧
    (∀ dline : Word, dline.any (fun c => c == '\t') = false →
       datasetLineParts dline = .error .indexError) :=
  ⟨loadFrom_error hbad lines [] hmem, fun _ h => datasetLineParts_no_tab h⟩

/-- Witness for the amended C9: one malformed line among well-formed ones
aborts the load. -/
theorem c9_malformed_aborts_witness :
    loadWordList [wstr "good\t5", wstr "bad line"] = .error .valueError ∧
    (∀ dline : Word, dline.any (fun c => c == '\t') = false →
       datasetLineParts dline = .error .indexError) :=
  c9_malformed_aborts [wstr "good\t5", wstr "bad line"] (wstr "bad line")
    (by decide) (by decide)

/-- Counterexample to C9 as frozen: the loader accepts the well-formed
file, yet adding one malformed line aborts the whole load with ValueError
instead of skipping it, and a dataset line without a tab raises IndexError;
the malformed item is not skipped and the pass does not continue. -/
theorem c9_skip_counterexample :
    loadWordList [wstr "good\t5"] = .ok [(wstr "good", 5)] ∧
    loadWordList [wstr "good\t5", wstr "bad line"] = .error .valueError ∧
    datasetLineParts (wstr "no tab here") = .error .indexError := by
  refine ⟨?_, ?_, ?_⟩ <;> decide
